import Mathlib

/-!
Shallow embedding of `src/app/services/tab_generator.py` (guitar-tabs-api).

Conventions of the embedding:
* Python floats are modelled as exact rationals (`Rat`) where the code only
  adds, subtracts, compares and divides them, and as reals where it calls
  `np.log2`.  Every concrete input appearing in the claims is an exact
  decimal, hence an exact rational.
* Python `int(x)` (truncation toward zero) is `truncQ`, `//` on ints is
  `Int.fdiv` (floor division), `%` with a positive modulus is `Int.emod`
  (result in `[0, modulus)`), matching Python semantics exactly.
* Python's `round` rounds half to even; `round` of Mathlib rounds half up.
  The two agree except at exact ties `…+0.5`, and `69 + 12*log2(q/440)` is
  never a tie for rational `q > 0` (that would force `2^(k/24)`, `24 ∤ k`,
  to be rational), so on the whole domain used here the translation is exact.
* Python dicts preserve insertion order; `insertionKeys` models the key
  order of the fret histogram.  `max(items, key=…)` keeps the first of
  several maxima; the `foldl` in `stableMaxKey` updates only on a strictly
  larger count, which is the same tie-break.
-/

set_option maxHeartbeats 1000000

namespace TabGen

/-- NOTES from tab_generator.py: the 12-entry chromatic sequence starting
at C (split in two halves here purely for line layout). -/
def NOTES : List String :=
  ["C", "C#", "D", "D#", "E", "F"] ++
    ["F#", "G", "G#", "A", "A#", "B"]

/-- GUITAR_TUNING from tab_generator.py: MIDI numbers of standard tuning,
index 0 is the high E string. -/
def GUITAR_TUNING : List Int := [64, 59, 55, 50, 45, 40]

/-- STRUMMING_PATTERNS['basic']. -/
def STRUMMING_PATTERNS_basic : String := "D D D D (Down strums on each beat)"

/-- STRUMMING_PATTERNS['country']. -/
def STRUMMING_PATTERNS_country : String := "D DU DU (Down, Down-Up, Down-Up)"

/-- STRUMMING_PATTERNS['rock']. -/
def STRUMMING_PATTERNS_rock : String := "D DU UDU (Down, Down-Up, Up-Down-Up)"

/-- STRUMMING_PATTERNS['reggae']. -/
def STRUMMING_PATTERNS_reggae : String := "U D U D (Up, Down, Up, Down - emphasize offbeats)"

/-- STRUMMING_PATTERNS['waltz']. -/
def STRUMMING_PATTERNS_waltz : String := "D D D (Down strums in 3/4 time)"

/-- STRUMMING_PATTERNS['ballad']. -/
def STRUMMING_PATTERNS_ballad : String := "D DUD U (Down, Down-Up-Down, Up)"

/-- Decimal digit characters of a natural number, most significant first:
Python `str(n)` for a nonnegative int. -/
def natDigits (n : Nat) : List Char :=
  if n < 10 then [Nat.digitChar n]
  else natDigits (n / 10) ++ [Nat.digitChar (n % 10)]
  termination_by n
  decreasing_by simp_wf; omega

/-- Python `str(z)` for an int, sign included. -/
def intChars (z : Int) : List Char :=
  if z < 0 then '-' :: natDigits (-z).toNat else natDigits z.toNat

/-- pitch_to_midi_note from tab_generator.py:
`0 if pitch <= 0 else int(round(69 + 12 * np.log2(pitch / 440.0)))`. -/
noncomputable def pitch_to_midi_note (pitch : Rat) : Int :=
  if pitch ≤ 0 then 0
  else round ((69 : ℝ) + 12 * Real.logb 2 ((pitch : ℝ) / 440))

/-- midi_to_note_name from tab_generator.py:
empty for `midi_note <= 0`, else `NOTES[(midi_note-21) % 12]` followed by
the decimal rendering of `(midi_note-12) // 12`. -/
def midi_to_note_name (midi_note : Int) : String :=
  if midi_note ≤ 0 then ""
  else
    NOTES.getD ((midi_note - 21).emod 12).toNat "" ++
      String.mk (intChars ((midi_note - 12).fdiv 12))

/-- The scan loop of note_to_tab_position: strings in tuning order, `i` the
index of the head of the remaining tuning list. -/
def ntpScan (midi_note : Int) : Nat → List Int → Option (Nat × Int)
  | _, [] => none
  | i, base :: rest =>
    if 0 ≤ midi_note - base ∧ midi_note - base ≤ 24 then some (i, midi_note - base)
    else ntpScan midi_note (i + 1) rest

/-- note_to_tab_position from tab_generator.py: the first string (lowest
index) whose fret `midi_note - base` lies in `[0, 24]`, else `none`. -/
def note_to_tab_position (midi_note : Int) : Option (Nat × Int) :=
  ntpScan midi_note 0 GUITAR_TUNING

/-- RhythmProfile: the dict returned by analyze_rhythm. -/
structure RhythmFeatures where
  tempo : Rat
  mean_ioi : Rat
  rhythm_consistency : Rat
  beat_emphasis : Rat
  onset_count : Nat

/-- detect_strumming_pattern from tab_generator.py, the nested conditionals
verbatim (thresholds 0.5, 0.3, 0.7, 0.2, -0.2 as exact rationals). -/
def detect_strumming_pattern (rf : RhythmFeatures) (is_fingerstyle : Bool) : String :=
  if is_fingerstyle then "N/A (Fingerstyle)"
  else if rf.rhythm_consistency > 1/2 then
    if rf.beat_emphasis > 3/10 then STRUMMING_PATTERNS_ballad
    else STRUMMING_PATTERNS_rock
  else
    if rf.beat_emphasis > 7/10 then
      if rf.tempo < 100 then
        if rf.tempo < 120 then STRUMMING_PATTERNS_waltz else STRUMMING_PATTERNS_basic
      else STRUMMING_PATTERNS_basic
    else if rf.beat_emphasis > 1/5 then STRUMMING_PATTERNS_country
    else if rf.beat_emphasis < -(1/5) then STRUMMING_PATTERNS_reggae
    else STRUMMING_PATTERNS_rock

/-- `beat_times[np.argmin(np.abs(beat_times - onset))]`: the beat at the
first index achieving the minimum absolute distance to the onset
(np.argmin returns the first minimising index; the fold updates only on a
strictly smaller distance, the same tie-break). -/
def closest_beat (beat_times : List Rat) (onset : Rat) : Rat :=
  match beat_times with
  | [] => 0
  | b :: bs => bs.foldl (fun best b2 => if |b2 - onset| < |best - onset| then b2 else best) b

/-- detect_beat_emphasis from tab_generator.py. -/
def detect_beat_emphasis (onset_times beat_times : List Rat) : Rat :=
  if onset_times.length = 0 ∨ beat_times.length = 0 then 0
  else
    let distances := onset_times.map (fun onset => onset - closest_beat beat_times onset)
    let beats_count := (distances.filter (fun d => |d| < 1/10)).length
    let offbeats_count := distances.length - beats_count
    let total := beats_count + offbeats_count
    if 0 < total then ((beats_count : Rat) - (offbeats_count : Rat)) / (total : Rat)
    else 0

/-- The claim's on-beat count (spec side of C6): onsets whose distance to
the nearest beat is strictly below the 0.1 s tolerance, i.e. onsets with
some beat within 0.1 s. -/
def on_beat_count (onset_times beat_times : List Rat) : Nat :=
  (onset_times.filter (fun t => decide (∃ b ∈ beat_times, |t - b| < 1/10))).length

/-- Keys of the Python dict `fret_counts` in insertion order: the distinct
values of the list, each at its first occurrence. -/
def insertionKeys : List Int → List Int
  | [] => []
  | x :: xs => x :: insertionKeys (xs.filter (fun y => y ≠ x))
  termination_by l => l.length
  decreasing_by simp_wf; exact Nat.lt_succ_of_le (List.length_filter_le _ _)

/-- `max(fret_counts.items(), key=lambda x: x[1])[0]`: first key of maximal
count (CPython max keeps the current item on ties, so the earliest-inserted
maximal key wins). `0` on an empty histogram (unreachable in the code, which
guards with `if fret_counts:`). -/
def stableMaxKey (pos : List Int) : Int :=
  match insertionKeys pos with
  | [] => 0
  | k :: ks => ks.foldl (fun best x => if pos.count best < pos.count x then x else best) k

/-- The frets of the notes that resolve to a tab position (`all_frets` in
generate_tab_notation); a note is a `(time, pitch)` pair. -/
noncomputable def resolved_frets (notes : List (Rat × Rat)) : List Int :=
  notes.filterMap fun tp => (note_to_tab_position (pitch_to_midi_note tp.2)).map Prod.snd

/-- The non-open resolved frets (`fret > 0`), the multiset the fret histogram
counts. -/
noncomputable def positive_resolved_frets (notes : List (Rat × Rat)) : List Int :=
  (resolved_frets notes).filter (fun f => 0 < f)

/-- The capo-fret selection block of generate_tab_notation: `0` unless a capo
is requested, the stable most-common non-open fret is accepted only in
`[1, 5]`, and empty histograms leave the capo at `0`. -/
noncomputable def capo_fret_choice (notes : List (Rat × Rat)) (use_capo : Bool) : Int :=
  if use_capo then
    if resolved_frets notes = [] then 0
    else if positive_resolved_frets notes = [] then 0
    else if 0 < stableMaxKey (positive_resolved_frets notes) ∧
        stableMaxKey (positive_resolved_frets notes) ≤ 5 then
      stableMaxKey (positive_resolved_frets notes)
    else 0
  else 0

/-- Strum-mark erasure (for C9): the map sending the strum mark `x` to the
filler dash and fixing every other character. -/
def xrepl (c : Char) : Char := if c = 'x' then '-' else c

/-- Python `int(q)`: truncation toward zero. -/
def truncQ (q : Rat) : Int := if 0 ≤ q then ⌊q⌋ else ⌈q⌉

/-- The renderer state: the six tab lines and `last_time` (initially `-1`). -/
structure RenderState where
  lines : List (List Char)
  last_time : Rat

/-- `tab_lines = ["E|", "B|", "G|", "D|", "A|", "E|"]` and `last_time = -1`. -/
def initState : RenderState :=
  ⟨[['E', '|'], ['B', '|'], ['G', '|'], ['D', '|'], ['A', '|'], ['E', '|']], -1⟩

/-- What one note slot appends to line `i` when the note sounds on string
`string_idx` at fret `fret`: the fret digits padded to width 2 on the
sounding string; `spacing` dashes elsewhere in fingerstyle mode; in strum
mode an `x` mark when `i` is on the same side of the 0-2 / 3-5 partition as
the sounding string, else dashes (`spacing = 2` throughout the source). -/
def slotChars (i string_idx : Nat) (fret : Int) (is_fingerstyle : Bool) : List Char :=
  if i = string_idx then intChars fret ++ List.replicate (2 - (intChars fret).length) '-'
  else if is_fingerstyle then ['-', '-']
  else if (3 ≤ i ∧ 3 ≤ string_idx) ∨ (i < 3 ∧ string_idx < 3) then ['x', '-']
  else ['-', '-']

/-- The `for i in range(6)` traversal: apply `f` to each line with its index. -/
def mapIdxFrom (f : Nat → List Char → List Char) : Nat → List (List Char) → List (List Char)
  | _, [] => []
  | i, l :: ls => f i l :: mapIdxFrom f (i + 1) ls

/-- The gap-filler prefix of one loop iteration: when `last_time >= 0`,
append `max(0, int(time_diff * 10) - 1)` dashes to all six lines. -/
def gapPadded (st : RenderState) (time : Rat) : List (List Char) :=
  if 0 ≤ st.last_time then
    st.lines.map
      (fun l => l ++ List.replicate (max 0 (truncQ ((time - st.last_time) * 10) - 1)).toNat '-')
  else st.lines

/-- One iteration of the note loop of generate_tab_notation, over a note
whose pitch has already been converted to a MIDI number (the conversion is
stateless, so it commutes with the loop). -/
def render_step (capo_fret : Int) (is_fingerstyle : Bool) (st : RenderState)
    (note : Rat × Int) : RenderState :=
  let time := note.1
  let lines0 := gapPadded st time
  let midi := if 0 < capo_fret then note.2 - capo_fret else note.2
  let lines1 :=
    match note_to_tab_position midi with
    | some (string_idx, fret) =>
        mapIdxFrom (fun i l => l ++ slotChars i string_idx fret is_fingerstyle) 0 lines0
    | none => lines0.map (fun l => l ++ ['-', '-'])
  ⟨lines1, time⟩

/-- The note loop of generate_tab_notation run over a note list. -/
noncomputable def render_notes (capo_fret : Int) (is_fingerstyle : Bool)
    (notes : List (Rat × Rat)) : RenderState :=
  (notes.map (fun tp => (tp.1, pitch_to_midi_note tp.2))).foldl
    (render_step capo_fret is_fingerstyle) initState

/-- generate_tab_notation from tab_generator.py (the name is shortened):
capo selection, the note loop, the trailing `"|"` terminators, the optional
capo annotation and the style annotation. -/
noncomputable def generate_tab (notes : List (Rat × Rat)) (use_capo is_fingerstyle : Bool) :
    String :=
  let capo_fret := capo_fret_choice notes use_capo
  let final := render_notes capo_fret is_fingerstyle notes
  let body := String.intercalate "\n" (final.lines.map (fun l => String.mk (l ++ ['|'])))
  let capo_info :=
    if 0 < capo_fret then "\nCapo on fret " ++ String.mk (intChars capo_fret) else ""
  let style_info := if is_fingerstyle then "\nFingerstyle pattern" else "\nStrumming pattern"
  body ++ capo_info ++ style_info

/-! ### Helper lemmas -/

/-- Closed form of the six-string scan: the branches in tuning order. -/
theorem ntp_eq (m : Int) :
    note_to_tab_position m =
      if 64 ≤ m ∧ m ≤ 88 then some (0, m - 64)
      else if 59 ≤ m ∧ m ≤ 83 then some (1, m - 59)
      else if 55 ≤ m ∧ m ≤ 79 then some (2, m - 55)
      else if 50 ≤ m ∧ m ≤ 74 then some (3, m - 50)
      else if 45 ≤ m ∧ m ≤ 69 then some (4, m - 45)
      else if 40 ≤ m ∧ m ≤ 64 then some (5, m - 40)
      else none := by
  simp only [note_to_tab_position, GUITAR_TUNING, ntpScan]
  split_ifs <;> first | rfl | omega

/-- A resolved position has a fret in `[0, 24]` and a string index below 6. -/
theorem ntp_some {m : Int} {s : Nat} {f : Int} (h : note_to_tab_position m = some (s, f)) :
    0 ≤ f ∧ f ≤ 24 ∧ s < 6 := by
  rw [ntp_eq] at h
  split_ifs at h <;> simp_all <;> omega

/-- From `2 ^ a ≤ x ^ 24` conclude `a / 24 ≤ logb 2 x`. -/
theorem le_logb_of_zpow {x : ℝ} (hx : 0 < x) {a : Int} (h : (2:ℝ) ^ a ≤ x ^ 24) :
    (a : ℝ) / 24 ≤ Real.logb 2 x := by
  rw [Real.le_logb_iff_rpow_le (by norm_num) hx]
  by_contra hcon
  push_neg at hcon
  have h24 : x ^ (24:ℕ) < ((2:ℝ) ^ ((a:ℝ)/24)) ^ (24:ℕ) := by
    apply pow_lt_pow_left₀ hcon (le_of_lt hx)
    norm_num
  rw [← Real.rpow_natCast ((2:ℝ) ^ ((a:ℝ)/24)) 24, ← Real.rpow_mul (by norm_num)] at h24
  push_cast at h24
  rw [div_mul_cancel₀ _ (by norm_num : (24:ℝ) ≠ 0)] at h24
  rw [Real.rpow_intCast] at h24
  linarith

/-- From `x ^ 24 < 2 ^ a` conclude `logb 2 x < a / 24`. -/
theorem logb_lt_of_zpow {x : ℝ} (hx : 0 < x) {a : Int} (h : x ^ 24 < (2:ℝ) ^ a) :
    Real.logb 2 x < (a : ℝ) / 24 := by
  rw [Real.logb_lt_iff_lt_rpow (by norm_num) hx]
  by_contra hcon
  push_neg at hcon
  have h24 : ((2:ℝ) ^ ((a:ℝ)/24)) ^ (24:ℕ) ≤ x ^ (24:ℕ) :=
    pow_le_pow_left₀ (by positivity) hcon 24
  rw [← Real.rpow_natCast ((2:ℝ) ^ ((a:ℝ)/24)) 24, ← Real.rpow_mul (by norm_num)] at h24
  push_cast at h24
  rw [div_mul_cancel₀ _ (by norm_num : (24:ℝ) ≠ 0)] at h24
  rw [Real.rpow_intCast] at h24
  linarith

/-- Exact evaluation of pitch_to_midi_note: `round (69 + 12*log2 (q/440)) = n`
once `(q/440)^24` is bracketed between `2^(2n-139)` and `2^(2n-137)`
(the bracket `[n - 1/2, n + 1/2)` for `69 + 12*log2`, raised to the 24th
power to clear the roots). -/
theorem p2m_eq {q : Rat} (hq : 0 < q) (n : Int)
    (h1 : (2:ℝ) ^ (2*n - 139) ≤ ((q:ℝ) / 440) ^ 24)
    (h2 : ((q:ℝ) / 440) ^ 24 < (2:ℝ) ^ (2*n - 137)) :
    pitch_to_midi_note q = n := by
  have hq' : ¬ (q ≤ 0) := not_le.mpr hq
  have hx : (0:ℝ) < (q:ℝ) / 440 := by
    have : (0:ℝ) < (q:ℝ) := by exact_mod_cast hq
    positivity
  have hlo := le_logb_of_zpow hx h1
  have hhi := logb_lt_of_zpow hx h2
  unfold pitch_to_midi_note
  rw [if_neg hq', round_eq, Int.floor_eq_iff]
  push_cast at hlo hhi ⊢
  constructor <;> linarith

/-- The nonpositive-frequency branch of pitch_to_midi_note. -/
theorem p2m_of_nonpos {q : Rat} (h : q ≤ 0) : pitch_to_midi_note q = 0 := by
  unfold pitch_to_midi_note
  rw [if_pos h]

/-- The running minimum of the `argmin` fold: the result is the accumulator
or a list element, and its distance to `t` is minimal. -/
theorem closest_fold (t : Rat) (l : List Rat) :
    ∀ acc : Rat,
      (l.foldl (fun best b2 => if |b2 - t| < |best - t| then b2 else best) acc = acc ∨
        l.foldl (fun best b2 => if |b2 - t| < |best - t| then b2 else best) acc ∈ l) ∧
      |l.foldl (fun best b2 => if |b2 - t| < |best - t| then b2 else best) acc - t| ≤ |acc - t| ∧
      (∀ x ∈ l, |l.foldl (fun best b2 => if |b2 - t| < |best - t| then b2 else best) acc - t| ≤ |x - t|) := by
  induction l with
  | nil => intro acc; simp
  | cons b bs ih =>
    intro acc
    simp only [List.foldl_cons]
    by_cases hb : |b - t| < |acc - t|
    · rw [if_pos hb]
      obtain ⟨hm, hle, hall⟩ := ih b
      refine ⟨?_, le_trans hle (le_of_lt hb), ?_⟩
      · rcases hm with h1 | h1
        · exact Or.inr (by rw [h1]; exact List.mem_cons_self b bs)
        · exact Or.inr (List.mem_cons_of_mem b h1)
      · intro x hx
        rcases List.mem_cons.mp hx with rfl | hx
        · exact hle
        · exact hall x hx
    · rw [if_neg hb]
      obtain ⟨hm, hle, hall⟩ := ih acc
      refine ⟨?_, hle, ?_⟩
      · rcases hm with h1 | h1
        · exact Or.inl h1
        · exact Or.inr (List.mem_cons_of_mem b h1)
      · intro x hx
        rcases List.mem_cons.mp hx with rfl | hx
        · exact le_trans hle (not_lt.mp hb)
        · exact hall x hx

/-- closest_beat of a nonempty beat list is a beat of minimal distance. -/
theorem closest_spec (bs : List Rat) (t : Rat) (h : bs ≠ []) :
    closest_beat bs t ∈ bs ∧ ∀ x ∈ bs, |t - closest_beat bs t| ≤ |t - x| := by
  match bs with
  | b :: rest =>
    have hcb : closest_beat (b :: rest) t =
        rest.foldl (fun best b2 => if |b2 - t| < |best - t| then b2 else best) b := rfl
    obtain ⟨hm, hle, hall⟩ := closest_fold t rest b
    rw [hcb]
    constructor
    · rcases hm with h1 | h1
      · rw [h1]; exact List.mem_cons_self b rest
      · exact List.mem_cons_of_mem b h1
    · intro x hx
      rw [abs_sub_comm t _, abs_sub_comm t x]
      rcases List.mem_cons.mp hx with rfl | hx
      · exact hle
      · exact hall x hx

/-- The code's on-beat test (distance to the chosen nearest beat < 0.1)
matches the spec's (some beat within 0.1). -/
theorem on_beat_iff (bs : List Rat) (t : Rat) (h : bs ≠ []) :
    (|t - closest_beat bs t| < 1/10) ↔ ∃ b ∈ bs, |t - b| < 1/10 := by
  obtain ⟨hmem, hmin⟩ := closest_spec bs t h
  constructor
  · intro hlt
    exact ⟨closest_beat bs t, hmem, hlt⟩
  · rintro ⟨b, hb, hlt⟩
    exact lt_of_le_of_lt (hmin b hb) hlt

/-- C6: detect_beat_emphasis is 0 when either sequence is empty; otherwise
it equals (onBeat - offBeat) / totalOnsets with an onset on-beat iff its
distance to the nearest beat is < 0.1 s, the value lies in [-1, 1], and the
two spec vectors give > 0.8 and < -0.2. -/
theorem C6 :
    (∀ bs, detect_beat_emphasis [] bs = 0) ∧
    (∀ os, detect_beat_emphasis os [] = 0) ∧
    (∀ os bs, os ≠ [] → bs ≠ [] →
      detect_beat_emphasis os bs =
        ((on_beat_count os bs : Rat) - ((os.length - on_beat_count os bs : Nat) : Rat)) /
          (os.length : Rat) ∧
      -1 ≤ detect_beat_emphasis os bs ∧ detect_beat_emphasis os bs ≤ 1) ∧
    detect_beat_emphasis [0.98, 1.97, 3.02, 4.05] [1, 2, 3, 4] > 0.8 ∧
    detect_beat_emphasis [1.5, 2.5, 3.5] [1, 2, 3, 4] < -0.2 := by
  have hmain : ∀ (os bs : List Rat), os ≠ [] → bs ≠ [] →
      detect_beat_emphasis os bs =
        ((on_beat_count os bs : Rat) - ((os.length - on_beat_count os bs : Nat) : Rat)) /
          (os.length : Rat) := by
    intro os bs hos hbs
    have hlen : os.length ≠ 0 := fun h => hos (List.length_eq_zero.mp h)
    have hlenb : bs.length ≠ 0 := fun h => hbs (List.length_eq_zero.mp h)
    unfold detect_beat_emphasis
    rw [if_neg (by simp [hlen, hlenb])]
    have hcount :
        ((os.map (fun t => t - closest_beat bs t)).filter (fun d => decide (|d| < 1/10))).length =
          on_beat_count os bs := by
      rw [List.filter_map]
      rw [List.length_map]
      unfold on_beat_count
      congr 1
      apply List.filter_congr
      intro t _
      simp only [Function.comp_apply, decide_eq_decide]
      exact on_beat_iff bs t hbs
    simp only [List.length_map]
    rw [hcount]
    have hk : on_beat_count os bs ≤ os.length := by
      unfold on_beat_count
      exact List.length_filter_le _ _
    rw [if_pos (by omega)]
    congr 1
    push_cast [Nat.add_sub_cancel' hk]
    ring
  refine ⟨by intro bs; simp [detect_beat_emphasis], by intro os; simp [detect_beat_emphasis],
    ?_, ?_, ?_⟩
  · intro os bs hos hbs
    refine ⟨hmain os bs hos hbs, ?_, ?_⟩ <;> rw [hmain os bs hos hbs]
    · have hk : on_beat_count os bs ≤ os.length := List.length_filter_le _ _
      have hn : 0 < os.length := List.length_pos.mpr hos
      rw [Nat.cast_sub hk, le_div_iff₀ (by exact_mod_cast hn)]
      have h1 : (on_beat_count os bs : Rat) ≥ 0 := Nat.cast_nonneg _
      have h2 : ((os.length : Nat) : Rat) > 0 := by exact_mod_cast hn
      linarith
    · have hk : on_beat_count os bs ≤ os.length := List.length_filter_le _ _
      have hn : 0 < os.length := List.length_pos.mpr hos
      rw [Nat.cast_sub hk, div_le_one (by exact_mod_cast hn)]
      have h1 : (on_beat_count os bs : Rat) ≤ (os.length : Rat) := by exact_mod_cast hk
      linarith
  · norm_num [detect_beat_emphasis, closest_beat, abs_eq_max_neg, max_def]
  · norm_num [detect_beat_emphasis, closest_beat, abs_eq_max_neg, max_def]

/-- C6 (witness): the main conjunct at the one-onset, one-beat input. -/
theorem C6_witness :
    detect_beat_emphasis [1] [1] =
      ((on_beat_count [1] [1] : Rat) - (([1].length - on_beat_count [1] [1] : Nat) : Rat)) /
        (([1] : List Rat).length : Rat) ∧
    -1 ≤ detect_beat_emphasis [1] [1] ∧ detect_beat_emphasis [1] [1] ≤ 1 :=
  C6.2.2.1 [1] [1] (by simp) (by simp)

/-! ### Claims -/

/-- C1 (counterexample): at the rhythm profile
`{tempo 110, consistency 1/5, emphasis 4/5}` -- inside the claimed regime
(`consistency ≤ 0.5`, `emphasis > 0.7`, not fingerstyle) and with
`tempo < 120` -- the code returns the BASIC description, not WALTZ, so
"WALTZ iff tempo < 120" is false: the code's threshold is `tempo < 100`. -/
theorem C1_counterexample :
    detect_strumming_pattern ⟨110, 0, 1/5, 4/5, 0⟩ false = STRUMMING_PATTERNS_basic ∧
    STRUMMING_PATTERNS_basic ≠ STRUMMING_PATTERNS_waltz ∧
    (1/5 : Rat) ≤ 1/2 ∧ (4/5 : Rat) > 7/10 ∧ (110 : Rat) < 120 := by
  refine ⟨?_, by decide, by norm_num, by norm_num, by norm_num⟩
  norm_num [detect_strumming_pattern]

/-- C1 (amended): for every rhythm profile with `rhythm_consistency ≤ 0.5`
and `beat_emphasis > 0.7`, and not fingerstyle, detect_strumming_pattern
returns the WALTZ description iff `tempo < 100`, and the BASIC description
otherwise (the source's inner `tempo < 120` test is dead under the outer
`tempo < 100` guard). -/
theorem C1_tempo_waltz (rf : RhythmFeatures) (h1 : rf.rhythm_consistency ≤ 1/2)
    (h2 : rf.beat_emphasis > 7/10) :
    (detect_strumming_pattern rf false = STRUMMING_PATTERNS_waltz ↔ rf.tempo < 100) ∧
    (detect_strumming_pattern rf false = STRUMMING_PATTERNS_basic ↔ ¬ rf.tempo < 100) := by
  have hc : ¬ (rf.rhythm_consistency > 1/2) := not_lt.mpr h1
  unfold detect_strumming_pattern
  rw [if_neg (by simp), if_neg hc, if_pos h2]
  by_cases ht : rf.tempo < 100
  · have ht2 : rf.tempo < 120 := lt_trans ht (by norm_num)
    rw [if_pos ht, if_pos ht2]
    exact ⟨iff_of_true rfl ht, iff_of_false (by decide) (not_not_intro ht)⟩
  · rw [if_neg ht]
    exact ⟨iff_of_false (by decide) ht, iff_of_true rfl ht⟩

/-- C1 (witness): the spec's own vectors, at tempo 90 (WALTZ) and, through
the iff, tempo 90 not being ≥ 100. -/
theorem C1_witness :
    (detect_strumming_pattern ⟨90, 0, 1/5, 4/5, 0⟩ false = STRUMMING_PATTERNS_waltz ↔
      (90 : Rat) < 100) ∧
    (detect_strumming_pattern ⟨90, 0, 1/5, 4/5, 0⟩ false = STRUMMING_PATTERNS_basic ↔
      ¬ (90 : Rat) < 100) :=
  C1_tempo_waltz ⟨90, 0, 1/5, 4/5, 0⟩ (by norm_num) (by norm_num)

/-- C2 (code evaluation): the claim says midi_to_note_name maps 60 to "C4"
and 69 to "A4" (as the repository's own unit tests assert); the code's
nonstandard `(midi-21) % 12` indexing in fact yields "D#4" for 60 and "C4"
for 69.  Only `midi_to_note_name 0 = ""` holds as claimed. -/
theorem C2_code_eval :
    midi_to_note_name 60 = "D#4" ∧ midi_to_note_name 69 = "C4" ∧ midi_to_note_name 0 = "" := by
  refine ⟨?_, ?_, ?_⟩ <;>
    simp [midi_to_note_name, NOTES, intChars, natDigits, Nat.digitChar] <;> decide

/-- C3: a resolved position `(s, f)` has `0 ≤ f ≤ 24`, satisfies
`GUITAR_TUNING[s] + f = m`, and `s` is the smallest index whose fret is in
range; `none` is returned exactly when no string index fits; and the three
concrete vectors 40 ↦ (5,0), 50 ↦ (3,0), 35 ↦ none hold. -/
theorem C3 (m : Int) :
    (∀ s f, note_to_tab_position m = some (s, f) →
      0 ≤ f ∧ f ≤ 24 ∧ GUITAR_TUNING.getD s 0 + f = m ∧
      ∀ j, j < s → ¬(0 ≤ m - GUITAR_TUNING.getD j 0 ∧ m - GUITAR_TUNING.getD j 0 ≤ 24)) ∧
    (note_to_tab_position m = none ↔
      ∀ j, j < 6 → ¬(0 ≤ m - GUITAR_TUNING.getD j 0 ∧ m - GUITAR_TUNING.getD j 0 ≤ 24)) ∧
    note_to_tab_position 40 = some (5, 0) ∧
    note_to_tab_position 50 = some (3, 0) ∧
    note_to_tab_position 35 = none := by
  refine ⟨?_, ?_, by decide, by decide, by decide⟩
  · intro s f h
    rw [ntp_eq] at h
    split_ifs at h with h1 h2 h3 h4 h5 h6 <;>
      (simp only [Option.some.injEq, Prod.mk.injEq] at h
       obtain ⟨rfl, rfl⟩ := h
       refine ⟨by omega, by omega, by simp [GUITAR_TUNING], ?_⟩
       intro j hj
       interval_cases j <;> simp [GUITAR_TUNING] <;> omega)
  · rw [ntp_eq]
    constructor
    · intro h j hj
      split_ifs at h
      interval_cases j <;> simp [GUITAR_TUNING] <;> omega
    · intro h
      have h0 := h 0 (by omega)
      have h1 := h 1 (by omega)
      have h2 := h 2 (by omega)
      have h3 := h 3 (by omega)
      have h4 := h 4 (by omega)
      have h5 := h 5 (by omega)
      simp [GUITAR_TUNING] at h0 h1 h2 h3 h4 h5
      split_ifs <;> first | rfl | omega

/-- C3 (witness): the soundness facts at `m = 40`, whose position is
`(5, 0)` (the open low E string). -/
theorem C3_witness :
    0 ≤ (0:Int) ∧ (0:Int) ≤ 24 ∧ GUITAR_TUNING.getD 5 0 + 0 = 40 ∧
      ∀ j, j < 5 → ¬(0 ≤ (40:Int) - GUITAR_TUNING.getD j 0 ∧
        (40:Int) - GUITAR_TUNING.getD j 0 ≤ 24) :=
  (C3 40).1 5 0 (by decide)

/-- C7: pitch_to_midi_note returns 0 for nonpositive frequencies and
`round (69 + 12*log2 (freq/440))` for positive ones; 440 Hz ↦ 69 and
261.63 Hz ↦ 60. -/
theorem C7 :
    (∀ q : Rat, q ≤ 0 → pitch_to_midi_note q = 0) ∧
    (∀ q : Rat, 0 < q →
      pitch_to_midi_note q = round ((69 : ℝ) + 12 * Real.logb 2 ((q : ℝ) / 440))) ∧
    pitch_to_midi_note 440 = 69 ∧ pitch_to_midi_note 261.63 = 60 := by
  refine ⟨fun q h => p2m_of_nonpos h, fun q h => ?_, ?_, ?_⟩
  · unfold pitch_to_midi_note
    rw [if_neg (not_le.mpr h)]
  · apply p2m_eq (by norm_num) 69 <;> norm_num
  · apply p2m_eq (by norm_num) 60 <;> norm_num

/-- C7 (witness): the nonpositive branch at the concrete frequency -1. -/
theorem C7_witness : pitch_to_midi_note (-1) = 0 := C7.1 (-1) (by norm_num)

theorem mem_mapIdxFrom (f : Nat → List Char → List Char) :
    ∀ (ls : List (List Char)) (i : Nat) (x : List Char),
      x ∈ mapIdxFrom f i ls → ∃ j l, l ∈ ls ∧ x = f j l := by
  intro ls
  induction ls with
  | nil => simp [mapIdxFrom]
  | cons l ls ih =>
    intro i x h
    rcases List.mem_cons.mp h with h | h
    · exact ⟨i, l, List.mem_cons_self _ _, h⟩
    · obtain ⟨j, a, ha, hx⟩ := ih (i + 1) x h
      exact ⟨j, a, List.mem_cons_of_mem _ ha, hx⟩

theorem natDigits_length_le {n : Nat} (h : n < 100) : (natDigits n).length ≤ 2 := by
  rw [natDigits]
  split_ifs with h1
  · simp
  · rw [natDigits, if_pos (by omega : n / 10 < 10)]
    simp

theorem intChars_length_le {f : Int} (h0 : 0 ≤ f) (h24 : f ≤ 24) : (intChars f).length ≤ 2 := by
  unfold intChars
  rw [if_neg (by omega)]
  exact natDigits_length_le (by omega)

theorem slot_length {i s : Nat} {f : Int} (h0 : 0 ≤ f) (h24 : f ≤ 24) (fs : Bool) :
    (slotChars i s f fs).length = 2 := by
  have hl := intChars_length_le h0 h24
  unfold slotChars
  split_ifs <;>
    (simp only [List.length_append, List.length_replicate, List.length_cons,
      List.length_nil]
     try omega)

theorem allEq_map_append {lines : List (List Char)} (suf : List Char)
    (h : ∀ l1 ∈ lines, ∀ l2 ∈ lines, l1.length = l2.length) :
    ∀ l1 ∈ lines.map (fun l => l ++ suf), ∀ l2 ∈ lines.map (fun l => l ++ suf),
      l1.length = l2.length := by
  intro l1 h1 l2 h2
  obtain ⟨a, ha, rfl⟩ := List.mem_map.mp h1
  obtain ⟨b, hb, rfl⟩ := List.mem_map.mp h2
  simp [h a ha b hb]

theorem allEq_gapPadded (st : RenderState) (t : Rat)
    (h : ∀ l1 ∈ st.lines, ∀ l2 ∈ st.lines, l1.length = l2.length) :
    ∀ l1 ∈ gapPadded st t, ∀ l2 ∈ gapPadded st t, l1.length = l2.length := by
  unfold gapPadded
  split_ifs
  · exact allEq_map_append _ h
  · exact h

theorem allEq_step (capo : Int) (fs : Bool) (st : RenderState) (note : Rat × Int)
    (h : ∀ l1 ∈ st.lines, ∀ l2 ∈ st.lines, l1.length = l2.length) :
    ∀ l1 ∈ (render_step capo fs st note).lines, ∀ l2 ∈ (render_step capo fs st note).lines,
      l1.length = l2.length := by
  have hgap := allEq_gapPadded st note.1 h
  rcases hm : note_to_tab_position (if 0 < capo then note.2 - capo else note.2) with _ | ⟨s, f⟩
  · simp only [render_step, hm]
    exact allEq_map_append _ hgap
  · obtain ⟨hf0, hf24, _⟩ := ntp_some hm
    simp only [render_step, hm]
    intro l1 h1 l2 h2
    obtain ⟨j1, a, ha, rfl⟩ := mem_mapIdxFrom _ _ _ _ h1
    obtain ⟨j2, b, hb, rfl⟩ := mem_mapIdxFrom _ _ _ _ h2
    simp [slot_length hf0 hf24, hgap a ha b hb]

theorem allEq_foldl (capo : Int) (fs : Bool) :
    ∀ (ns : List (Rat × Int)) (st : RenderState),
      (∀ l1 ∈ st.lines, ∀ l2 ∈ st.lines, l1.length = l2.length) →
      ∀ l1 ∈ (ns.foldl (render_step capo fs) st).lines,
      ∀ l2 ∈ (ns.foldl (render_step capo fs) st).lines, l1.length = l2.length := by
  intro ns
  induction ns with
  | nil => intro st h; exact h
  | cons n ns ih =>
    intro st h
    exact ih _ (allEq_step capo fs st n h)

/-- C4: for every note sequence, capo setting and fingerstyle setting, after
processing any prefix of the notes (and before the trailing terminators) all
six string lines of the tab have equal length. -/
theorem C4 (notes : List (Rat × Rat)) (use_capo is_fingerstyle : Bool) (k : Nat) :
    ∀ l1 ∈ (render_notes (capo_fret_choice notes use_capo) is_fingerstyle (notes.take k)).lines,
    ∀ l2 ∈ (render_notes (capo_fret_choice notes use_capo) is_fingerstyle (notes.take k)).lines,
      l1.length = l2.length := by
  unfold render_notes
  exact allEq_foldl _ _ _ _ (by decide)

/-- C4 (witness): the invariant instantiated at a concrete one-note input,
prefix length 0, on the first two lines. -/
theorem C4_witness :
    (['E', '|'] : List Char).length = (['B', '|'] : List Char).length :=
  C4 [(0, 440)] false false 0 ['E', '|'] (by decide) ['B', '|'] (by decide)


theorem digitChar_ne_x (k : Nat) : Nat.digitChar k ≠ 'x' := by
  rcases Nat.lt_or_ge k 16 with h | h
  · interval_cases k <;> decide
  · have hstar : Nat.digitChar k = '*' := by
      unfold Nat.digitChar
      repeat rw [if_neg (by omega)]
    rw [hstar]
    decide

theorem xrepl_natDigits (n : Nat) : (natDigits n).map xrepl = natDigits n := by
  induction n using Nat.strong_induction_on with
  | _ n ih =>
    rw [natDigits]
    split_ifs with h
    · simp [xrepl, digitChar_ne_x]
    · rw [List.map_append, ih (n / 10) (by omega)]
      simp [xrepl, digitChar_ne_x]

theorem xrepl_intChars (f : Int) : (intChars f).map xrepl = intChars f := by
  unfold intChars
  split_ifs
  · simp only [List.map_cons, xrepl_natDigits]
    norm_num [xrepl]
  · exact xrepl_natDigits _

theorem slot_xrepl (i s : Nat) (f : Int) :
    (slotChars i s f false).map xrepl = slotChars i s f true := by
  simp only [slotChars, Bool.false_eq_true, if_false, if_true]
  split_ifs
  · rw [List.map_append, xrepl_intChars, List.map_replicate]
    rfl
  · rfl
  · rfl

theorem mapIdxFrom_xrepl (s : Nat) (f : Int) :
    ∀ (ls : List (List Char)) (i : Nat),
      mapIdxFrom (fun j l => l ++ slotChars j s f true) i (ls.map (List.map xrepl)) =
        (mapIdxFrom (fun j l => l ++ slotChars j s f false) i ls).map (List.map xrepl) := by
  intro ls
  induction ls with
  | nil => intro i; rfl
  | cons l ls ih =>
    intro i
    simp only [List.map_cons, mapIdxFrom, ih]
    congr 1
    rw [List.map_append, slot_xrepl]

theorem gapPadded_xrepl (st : RenderState) (t : Rat) :
    gapPadded ⟨st.lines.map (List.map xrepl), st.last_time⟩ t =
      (gapPadded st t).map (List.map xrepl) := by
  unfold gapPadded
  split_ifs
  · rw [List.map_map, List.map_map]
    congr 1
    funext l
    simp only [Function.comp_apply, List.map_append, List.map_replicate]
    rfl
  · rfl

theorem step_xrepl (capo : Int) (st : RenderState) (note : Rat × Int) :
    render_step capo true ⟨st.lines.map (List.map xrepl), st.last_time⟩ note =
      ⟨((render_step capo false st note).lines).map (List.map xrepl),
        (render_step capo false st note).last_time⟩ := by
  rcases hm : note_to_tab_position (if 0 < capo then note.2 - capo else note.2) with _ | ⟨s, f⟩
  · simp only [render_step, hm, gapPadded_xrepl]
    rw [List.map_map, List.map_map]
    congr 1
    apply List.map_congr_left
    intro l _
    simp only [Function.comp_apply, List.map_append]
    rfl
  · simp only [render_step, hm, gapPadded_xrepl, mapIdxFrom_xrepl]

theorem foldl_xrepl (capo : Int) :
    ∀ (ns : List (Rat × Int)) (st : RenderState),
      (ns.foldl (render_step capo true) ⟨st.lines.map (List.map xrepl), st.last_time⟩).lines =
        ((ns.foldl (render_step capo false) st).lines).map (List.map xrepl) := by
  intro ns
  induction ns with
  | nil => intro st; rfl
  | cons n ns ih =>
    intro st
    simp only [List.foldl_cons]
    rw [step_xrepl capo st n]
    exact ih (render_step capo false st n)

/-- C9: with the same notes and capo setting, the fingerstyle diagram's
lines are exactly the strum diagram's lines with every `x` mark replaced by
a filler dash -- so the two agree on line lengths and on every fret digit,
and differ only in `x` marks on non-sounding strings (the style annotation
line aside). -/
theorem C9 (notes : List (Rat × Rat)) (use_capo : Bool) :
    (render_notes (capo_fret_choice notes use_capo) true notes).lines =
      ((render_notes (capo_fret_choice notes use_capo) false notes).lines).map
        (List.map xrepl) ∧
    (render_notes (capo_fret_choice notes use_capo) true notes).lines.map List.length =
      (render_notes (capo_fret_choice notes use_capo) false notes).lines.map List.length := by
  have hinit : (initState.lines.map (List.map xrepl), initState.last_time) =
      (initState.lines, initState.last_time) := by decide
  have h := foldl_xrepl (capo_fret_choice notes use_capo)
    (notes.map (fun tp => (tp.1, pitch_to_midi_note tp.2))) initState
  rw [show (initState.lines.map (List.map xrepl)) = initState.lines from by decide] at h
  unfold render_notes
  constructor
  · exact h
  · rw [h]
    simp [List.map_map, Function.comp_def]

/-- C8: on the empty note sequence generate_tab_notation does not fail and
returns the degenerate diagram: six label-only lines terminated by `"|"`,
no capo annotation (capo fret 0), and the style annotation line. -/
theorem C8 (use_capo is_fingerstyle : Bool) :
    generate_tab [] use_capo is_fingerstyle =
      "E||\nB||\nG||\nD||\nA||\nE||" ++
        (if is_fingerstyle then "\nFingerstyle pattern" else "\nStrumming pattern") ∧
    capo_fret_choice [] use_capo = 0 := by
  cases use_capo <;> cases is_fingerstyle <;> exact ⟨by decide, by decide⟩

/-- C10: pitch_to_midi_note does not clamp to [0, 127]: some positive
frequency maps below 0 (5 Hz ↦ -9) and some above 127 (30000 Hz ↦ 142);
every MIDI value outside [40, 88] resolves to `none`; and a note that
resolves to `none` is rendered as a rest: the loop appends the two-space
filler to all lines and never fails. -/
theorem C10 :
    (∃ q : Rat, 0 < q ∧ pitch_to_midi_note q < 0) ∧
    (∃ q : Rat, 0 < q ∧ 127 < pitch_to_midi_note q) ∧
    (∀ m : Int, m < 40 ∨ 88 < m → note_to_tab_position m = none) ∧
    (∀ (capo : Int) (fs : Bool) (st : RenderState) (t : Rat) (m : Int),
      note_to_tab_position (if 0 < capo then m - capo else m) = none →
      (render_step capo fs st (t, m)).lines = (gapPadded st t).map (fun l => l ++ ['-', '-'])) := by
  refine ⟨⟨5, by norm_num, ?_⟩, ⟨30000, by norm_num, ?_⟩, ?_, ?_⟩
  · rw [show pitch_to_midi_note 5 = -9 from by apply p2m_eq (by norm_num) (-9) <;> norm_num]
    norm_num
  · rw [show pitch_to_midi_note 30000 = 142 from by apply p2m_eq (by norm_num) 142 <;> norm_num]
    norm_num
  · intro m hm
    rw [ntp_eq]
    split_ifs <;> first | rfl | (exfalso; omega)
  · intro capo fs st t m h
    simp only [render_step, h]

/-- C10 (witness): the out-of-range fact applied at the concrete MIDI
value 100. -/
theorem C10_witness : note_to_tab_position 100 = none :=
  C10.2.2.1 100 (Or.inr (by norm_num))

/-- Fuel-indexed membership of the insertion-order key list. -/
theorem mem_insertionKeys_aux : ∀ (n : Nat) (l : List Int), l.length ≤ n →
    ∀ x, (x ∈ insertionKeys l ↔ x ∈ l) := by
  intro n
  induction n with
  | zero =>
    intro l hl x
    match l with
    | [] => simp [insertionKeys]
  | succ m ih =>
    intro l hl x
    match l with
    | [] => simp [insertionKeys]
    | y :: ys =>
      rw [insertionKeys]
      have hlen : (ys.filter (fun z => z ≠ y)).length ≤ m := by
        have := List.length_filter_le (fun z => z ≠ y) ys
        simp only [List.length_cons] at hl
        omega
      rw [List.mem_cons, ih _ hlen x, List.mem_filter]
      constructor
      · rintro (rfl | ⟨hmem, _⟩)
        · exact List.mem_cons_self _ _
        · exact List.mem_cons_of_mem _ hmem
      · intro h
        rcases List.mem_cons.mp h with rfl | hmem
        · exact Or.inl rfl
        · by_cases hxy : x = y
          · exact Or.inl hxy
          · exact Or.inr ⟨hmem, by simpa using hxy⟩

/-- The histogram keys are exactly the values of the list. -/
theorem mem_insertionKeys (l : List Int) (x : Int) : x ∈ insertionKeys l ↔ x ∈ l :=
  mem_insertionKeys_aux l.length l le_rfl x

/-- Fuel-indexed: the key list has no duplicates. -/
theorem nodup_insertionKeys_aux : ∀ (n : Nat) (l : List Int), l.length ≤ n →
    (insertionKeys l).Nodup := by
  intro n
  induction n with
  | zero =>
    intro l hl
    match l with
    | [] => simp [insertionKeys]
  | succ m ih =>
    intro l hl
    match l with
    | [] => simp [insertionKeys]
    | y :: ys =>
      rw [insertionKeys]
      have hlen : (ys.filter (fun z => z ≠ y)).length ≤ m := by
        have := List.length_filter_le (fun z => z ≠ y) ys
        simp only [List.length_cons] at hl
        omega
      rw [List.nodup_cons]
      refine ⟨?_, ih _ hlen⟩
      intro hmem
      rw [mem_insertionKeys, List.mem_filter] at hmem
      simp at hmem

/-- The histogram keys are pairwise distinct. -/
theorem nodup_insertionKeys (l : List Int) : (insertionKeys l).Nodup :=
  nodup_insertionKeys_aux l.length l le_rfl

/-- filter preserves relative order of first occurrences. -/
theorem filter_indexOf_lt (p : Int → Bool) :
    ∀ (xs : List Int) (u v : Int), u ∈ xs.filter p → v ∈ xs.filter p →
      (xs.filter p).indexOf u < (xs.filter p).indexOf v → xs.indexOf u < xs.indexOf v := by
  intro xs
  induction xs with
  | nil => simp
  | cons a xs ih =>
    intro u v hu hv hlt
    by_cases hpa : p a
    · rw [List.filter_cons_of_pos hpa] at hu hv hlt
      by_cases hua : u = a
      · subst hua
        have hva : v ≠ u := by
          intro h
          subst h
          omega
        rw [List.indexOf_cons_self]
        rw [List.indexOf_cons_ne _ (fun h => hva h.symm)]
        omega
      · by_cases hva : v = a
        · subst hva
          rw [List.indexOf_cons_ne _ (fun h => hua h.symm), List.indexOf_cons_self] at hlt
          omega
        · rw [List.indexOf_cons_ne _ (fun h => hua h.symm),
            List.indexOf_cons_ne _ (fun h => hva h.symm)] at hlt
          have hu' : u ∈ xs.filter p := by
            rcases List.mem_cons.mp hu with h | h
            · exact absurd h hua
            · exact h
          have hv' : v ∈ xs.filter p := by
            rcases List.mem_cons.mp hv with h | h
            · exact absurd h hva
            · exact h
          have := ih u v hu' hv' (by omega)
          rw [List.indexOf_cons_ne _ (fun h => hua h.symm),
            List.indexOf_cons_ne _ (fun h => hva h.symm)]
          omega
    · rw [List.filter_cons_of_neg hpa] at hu hv hlt
      have hua : u ≠ a := by
        intro h
        subst h
        exact hpa (List.mem_filter.mp hu).2
      have hva : v ≠ a := by
        intro h
        subst h
        exact hpa (List.mem_filter.mp hv).2
      have := ih u v hu hv hlt
      rw [List.indexOf_cons_ne _ (fun h => hua h.symm),
        List.indexOf_cons_ne _ (fun h => hva h.symm)]
      omega

/-- Fuel-indexed: key order is first-occurrence order of the list. -/
theorem insertionKeys_indexOf_lt_aux : ∀ (n : Nat) (l : List Int), l.length ≤ n →
    ∀ (u v : Int), u ∈ insertionKeys l → v ∈ insertionKeys l →
      (insertionKeys l).indexOf u < (insertionKeys l).indexOf v →
      l.indexOf u < l.indexOf v := by
  intro n
  induction n with
  | zero =>
    intro l hl u v hu _ _
    match l with
    | [] => simp [insertionKeys] at hu
  | succ m ih =>
    intro l hl u v hu hv hlt
    match l with
    | [] => simp [insertionKeys] at hu
    | y :: ys =>
      rw [insertionKeys] at hu hv hlt
      have hlen : (ys.filter (fun z => z ≠ y)).length ≤ m := by
        have := List.length_filter_le (fun z => z ≠ y) ys
        simp only [List.length_cons] at hl
        omega
      by_cases huy : u = y
      · subst huy
        have hvy : v ≠ u := by
          intro h
          subst h
          rw [List.indexOf_cons_self] at hlt
          omega
        rw [List.indexOf_cons_self]
        rw [List.indexOf_cons_ne _ (fun h => hvy h.symm)]
        omega
      · by_cases hvy : v = y
        · subst hvy
          rw [List.indexOf_cons_ne _ (fun h => huy h.symm), List.indexOf_cons_self] at hlt
          omega
        · rw [List.indexOf_cons_ne _ (fun h => huy h.symm),
            List.indexOf_cons_ne _ (fun h => hvy h.symm)] at hlt
          have hu' : u ∈ insertionKeys (ys.filter (fun z => z ≠ y)) := by
            rcases List.mem_cons.mp hu with h | h
            · exact absurd h huy
            · exact h
          have hv' : v ∈ insertionKeys (ys.filter (fun z => z ≠ y)) := by
            rcases List.mem_cons.mp hv with h | h
            · exact absurd h hvy
            · exact h
          have hfil := ih _ hlen u v hu' hv' (by omega)
          have hmemu : u ∈ ys.filter (fun z => z ≠ y) := (mem_insertionKeys _ u).mp hu'
          have hmemv : v ∈ ys.filter (fun z => z ≠ y) := (mem_insertionKeys _ v).mp hv'
          have := filter_indexOf_lt _ ys u v hmemu hmemv hfil
          rw [List.indexOf_cons_ne _ (fun h => huy h.symm),
            List.indexOf_cons_ne _ (fun h => hvy h.symm)]
          omega

/-- A key earlier in the key list occurs first earlier in the list. -/
theorem insertionKeys_indexOf_lt (l : List Int) (u v : Int) (hu : u ∈ insertionKeys l)
    (hv : v ∈ insertionKeys l)
    (hlt : (insertionKeys l).indexOf u < (insertionKeys l).indexOf v) :
    l.indexOf u < l.indexOf v :=
  insertionKeys_indexOf_lt_aux l.length l le_rfl u v hu hv hlt

/-- The first-max-wins fold: its result is the accumulator or a list
element, its count dominates every element, strictly dominates the
accumulator whenever it moved, and on count ties the result sits earlier
in the (duplicate-free) fold list. -/
theorem stable_fold (cnt : Int → Nat) :
    ∀ (ks : List Int) (acc : Int), acc ∉ ks → ks.Nodup →
      ((ks.foldl (fun b x => if cnt b < cnt x then x else b) acc = acc ∨
        ks.foldl (fun b x => if cnt b < cnt x then x else b) acc ∈ ks) ∧
       cnt acc ≤ cnt (ks.foldl (fun b x => if cnt b < cnt x then x else b) acc) ∧
       (∀ x ∈ ks, cnt x ≤ cnt (ks.foldl (fun b x => if cnt b < cnt x then x else b) acc)) ∧
       (ks.foldl (fun b x => if cnt b < cnt x then x else b) acc ≠ acc →
         cnt acc < cnt (ks.foldl (fun b x => if cnt b < cnt x then x else b) acc)) ∧
       (∀ x ∈ ks, cnt x = cnt (ks.foldl (fun b x => if cnt b < cnt x then x else b) acc) →
         ks.foldl (fun b x => if cnt b < cnt x then x else b) acc ≠ x →
         (ks.foldl (fun b x => if cnt b < cnt x then x else b) acc = acc ∨
          ks.indexOf (ks.foldl (fun b x => if cnt b < cnt x then x else b) acc) <
            ks.indexOf x))) := by
  intro ks
  induction ks with
  | nil =>
    intro acc _ _
    exact ⟨Or.inl rfl, le_refl _, by simp, fun h => absurd rfl h, by simp⟩
  | cons k2 ks ih =>
    intro acc hacc hnd
    have haccks : acc ∉ ks := fun h => hacc (List.mem_cons_of_mem _ h)
    have hk2ks : k2 ∉ ks := (List.nodup_cons.mp hnd).1
    have hndks : ks.Nodup := (List.nodup_cons.mp hnd).2
    simp only [List.foldl_cons]
    by_cases hup : cnt acc < cnt k2
    · rw [if_pos hup]
      obtain ⟨h1, h2, h3, h4, h5⟩ := ih k2 hk2ks hndks
      set r := ks.foldl (fun b x => if cnt b < cnt x then x else b) k2 with hr
      refine ⟨?_, ?_, ?_, ?_, ?_⟩
      · rcases h1 with h | h
        · exact Or.inr (by rw [h]; exact List.mem_cons_self _ _)
        · exact Or.inr (List.mem_cons_of_mem _ h)
      · omega
      · intro x hx
        rcases List.mem_cons.mp hx with hxe | hx
        · rw [hxe]
          exact h2
        · exact h3 x hx
      · intro _
        omega
      · intro x hx hcx hrx
        rcases List.mem_cons.mp hx with hxe | hx
        · by_cases hrk : r = x
          · exact absurd hrk hrx
          · have hclt := h4 (fun hh => hrk (hh.trans hxe.symm))
            rw [hxe] at hcx
            omega
        · have hxk2 : x ≠ k2 := fun h => hk2ks (h ▸ hx)
          rcases h5 x hx hcx hrx with hrk | hlt
          · rw [hrk, List.indexOf_cons_self, List.indexOf_cons_ne _ (fun h => hxk2 h.symm)]
            exact Or.inr (Nat.succ_pos _)
          · by_cases hrk : r = k2
            · rw [hrk, List.indexOf_cons_self, List.indexOf_cons_ne _ (fun h => hxk2 h.symm)]
              exact Or.inr (Nat.succ_pos _)
            · rw [List.indexOf_cons_ne _ (fun h => hrk h.symm),
                List.indexOf_cons_ne _ (fun h => hxk2 h.symm)]
              exact Or.inr (by omega)
    · rw [if_neg hup]
      obtain ⟨h1, h2, h3, h4, h5⟩ := ih acc haccks hndks
      set r := ks.foldl (fun b x => if cnt b < cnt x then x else b) acc with hr
      refine ⟨?_, h2, ?_, h4, ?_⟩
      · rcases h1 with h | h
        · exact Or.inl h
        · exact Or.inr (List.mem_cons_of_mem _ h)
      · intro x hx
        rcases List.mem_cons.mp hx with hxe | hx
        · rw [hxe]
          omega
        · exact h3 x hx
      · intro x hx hcx hrx
        rcases List.mem_cons.mp hx with hxe | hx
        · by_cases hrk : r = acc
          · exact Or.inl hrk
          · have := h4 hrk
            rw [hxe] at hcx
            omega
        · have hxk2 : x ≠ k2 := fun h => hk2ks (h ▸ hx)
          rcases h5 x hx hcx hrx with hrk | hlt
          · exact Or.inl hrk
          · by_cases hracc : r = acc
            · exact Or.inl hracc
            · have hrks : r ∈ ks := by
                rcases h1 with h | h
                · exact absurd h hracc
                · exact h
              have hrk2 : r ≠ k2 := fun h => hk2ks (h ▸ hrks)
              rw [List.indexOf_cons_ne _ (fun h => hrk2 h.symm),
                List.indexOf_cons_ne _ (fun h => hxk2 h.symm)]
              exact Or.inr (by omega)

/-- stableMaxKey of a nonempty list is an element of maximal count whose
first occurrence precedes that of every other element of equal count. -/
theorem stableMaxKey_spec (pos : List Int) (h : pos ≠ []) :
    stableMaxKey pos ∈ pos ∧
    (∀ x ∈ pos, pos.count x ≤ pos.count (stableMaxKey pos)) ∧
    (∀ x ∈ pos, pos.count x = pos.count (stableMaxKey pos) → x ≠ stableMaxKey pos →
      pos.indexOf (stableMaxKey pos) < pos.indexOf x) := by
  have hkeysne : insertionKeys pos ≠ [] := by
    match pos with
    | [] => exact absurd rfl h
    | y :: ys => rw [insertionKeys]; simp
  match hk : insertionKeys pos with
  | [] => exact absurd hk hkeysne
  | k :: ks =>
    have hnd : (k :: ks).Nodup := hk ▸ nodup_insertionKeys pos
    have hkks : k ∉ ks := (List.nodup_cons.mp hnd).1
    have hndks : ks.Nodup := (List.nodup_cons.mp hnd).2
    have hsmk : stableMaxKey pos = ks.foldl
        (fun best x => if pos.count best < pos.count x then x else best) k := by
      rw [stableMaxKey, hk]
    obtain ⟨h1, h2, h3, h4, h5⟩ := stable_fold pos.count ks k hkks hndks
    set r := ks.foldl (fun b x => if pos.count b < pos.count x then x else b) k with hr
    have hrkeys : r ∈ k :: ks := by
      rcases h1 with hh | hh
      · exact hh ▸ List.mem_cons_self _ _
      · exact List.mem_cons_of_mem _ hh
    have hrpos : r ∈ pos := (mem_insertionKeys pos r).mp (hk ▸ hrkeys)
    rw [hsmk]
    refine ⟨hrpos, ?_, ?_⟩
    · intro x hx
      have hxkeys : x ∈ k :: ks := hk ▸ (mem_insertionKeys pos x).mpr hx
      rcases List.mem_cons.mp hxkeys with hxe | hxks
      · rw [hxe]
        exact h2
      · exact h3 x hxks
    · intro x hx hcx hxr
      have hxkeys : x ∈ k :: ks := hk ▸ (mem_insertionKeys pos x).mpr hx
      have hkeyslt : (k :: ks).indexOf r < (k :: ks).indexOf x := by
        rcases List.mem_cons.mp hxkeys with hxe | hxks
        · by_cases hrk : r = x
          · exact absurd hrk.symm hxr
          · have := h4 (fun hh => hrk (hh.trans hxe.symm))
            rw [hxe] at hcx
            omega
        · have hxk : x ≠ k := fun hh => hkks (hh ▸ hxks)
          rcases h5 x hxks (by omega) (fun hh => hxr hh.symm) with hrk | hlt
          · rw [hrk, List.indexOf_cons_self, List.indexOf_cons_ne _ (fun hh => hxk hh.symm)]
            exact Nat.succ_pos _
          · by_cases hrk : r = k
            · rw [hrk, List.indexOf_cons_self, List.indexOf_cons_ne _ (fun hh => hxk hh.symm)]
              exact Nat.succ_pos _
            · rw [List.indexOf_cons_ne _ (fun hh => hrk hh.symm),
                List.indexOf_cons_ne _ (fun hh => hxk hh.symm)]
              omega
      have := insertionKeys_indexOf_lt pos r x (hk ▸ hrkeys) (hk ▸ hxkeys) (by rw [hk]; exact hkeyslt)
      exact this

/-- C5: the capo fret always lies in [0, 5]; with no non-open resolved
frets (in particular all-open sequences) it is 0; and with some non-open
fret it equals the most frequent non-open resolved fret -- ties broken by
first occurrence -- when that fret lies in [1, 5], else 0. -/
theorem C5 (notes : List (Rat × Rat)) (use_capo : Bool) :
    (0 ≤ capo_fret_choice notes use_capo ∧ capo_fret_choice notes use_capo ≤ 5) ∧
    (positive_resolved_frets notes = [] → capo_fret_choice notes true = 0) ∧
    (positive_resolved_frets notes ≠ [] →
      ∃ cand,
        cand ∈ positive_resolved_frets notes ∧
        (∀ x ∈ positive_resolved_frets notes,
          (positive_resolved_frets notes).count x ≤
            (positive_resolved_frets notes).count cand) ∧
        (∀ x ∈ positive_resolved_frets notes,
          (positive_resolved_frets notes).count x = (positive_resolved_frets notes).count cand →
          x ≠ cand →
          (positive_resolved_frets notes).indexOf cand <
            (positive_resolved_frets notes).indexOf x) ∧
        capo_fret_choice notes true = if 1 ≤ cand ∧ cand ≤ 5 then cand else 0) := by
  refine ⟨?_, ?_, ?_⟩
  · unfold capo_fret_choice
    split_ifs <;> omega
  · intro hpos
    unfold capo_fret_choice
    rw [if_pos rfl]
    by_cases h1 : resolved_frets notes = []
    · rw [if_pos h1]
    · rw [if_neg h1, if_pos hpos]
  · intro hpos
    obtain ⟨hmem, hmax, htie⟩ := stableMaxKey_spec _ hpos
    refine ⟨stableMaxKey (positive_resolved_frets notes), hmem, hmax, htie, ?_⟩
    have hres : resolved_frets notes ≠ [] := by
      intro h
      apply hpos
      unfold positive_resolved_frets
      rw [h]
      rfl
    unfold capo_fret_choice
    rw [if_pos rfl, if_neg hres, if_neg hpos]
    split_ifs <;> first | rfl | omega

/-- C5 (witness): the existence conjunct at a concrete three-note input
(220 Hz, 220 Hz, 440 Hz: frets 2, 2, 5, capo candidate 2). -/
theorem C5_witness :
    ∃ cand,
      cand ∈ positive_resolved_frets [(0, 220), (1/2, 220), (1, 440)] ∧
      (∀ x ∈ positive_resolved_frets [(0, 220), (1/2, 220), (1, 440)],
        (positive_resolved_frets [(0, 220), (1/2, 220), (1, 440)]).count x ≤
          (positive_resolved_frets [(0, 220), (1/2, 220), (1, 440)]).count cand) ∧
      (∀ x ∈ positive_resolved_frets [(0, 220), (1/2, 220), (1, 440)],
        (positive_resolved_frets [(0, 220), (1/2, 220), (1, 440)]).count x =
          (positive_resolved_frets [(0, 220), (1/2, 220), (1, 440)]).count cand →
        x ≠ cand →
        (positive_resolved_frets [(0, 220), (1/2, 220), (1, 440)]).indexOf cand <
          (positive_resolved_frets [(0, 220), (1/2, 220), (1, 440)]).indexOf x) ∧
      capo_fret_choice [(0, 220), (1/2, 220), (1, 440)] true =
        if 1 ≤ cand ∧ cand ≤ 5 then cand else 0 :=
  (C5 [(0, 220), (1/2, 220), (1, 440)] true).2.2 (by
    have h220 : pitch_to_midi_note 220 = 57 := by
      apply p2m_eq (by norm_num) 57 <;> norm_num
    have h440 : pitch_to_midi_note 440 = 69 := by
      apply p2m_eq (by norm_num) 69 <;> norm_num
    have h57 : note_to_tab_position 57 = some (2, 2) := by decide
    have h69 : note_to_tab_position 69 = some (0, 5) := by decide
    simp [positive_resolved_frets, resolved_frets, h220, h440, h57, h69])

end TabGen
